import Mathlib

/-!
Verification of the filter-state engine of `filter-cat` (src/filter-cat.ts).

The engine is embedded shallowly: JavaScript strings become `List Char`,
DOM control state becomes explicit inductive data, and each private method
of the `FilterCat` class becomes a pure Lean function whose definition is a
direct transcription of the corresponding source lines (cited next to each
definition).  Browser primitives used by the source (`String.prototype.replace`,
`String.prototype.split`, `String.prototype.trim`, `URLSearchParams`) are
modelled explicitly with their documented first-occurrence / separator
semantics.
-/

namespace FilterCat

/-- JavaScript strings are modelled as lists of characters. -/
abbrev Str : Type := List Char

/-- The U+0060 grave accent character, written via its code point. -/
def graveChar : Char := Char.ofNat 96

/-- The U+0027 apostrophe character, written via its code point. -/
def aposChar : Char := Char.ofNat 39

/-- The first-occurrence search of JavaScript `String.prototype.replace` with
a plain-string pattern: the split (text before the match, text after the
match) around the first occurrence of `pat`, or `none` when `pat` does not
occur; an empty pattern matches at position 0. -/
def findFirst (pat : Str) : Str → Option (Str × Str)
  | [] => if pat.isPrefixOf [] then some ([], ([] : Str).drop pat.length) else none
  | c :: t =>
      if pat.isPrefixOf (c :: t) then some ([], (c :: t).drop pat.length)
      else (findFirst pat t).map (fun p => (c :: p.1, p.2))

/-- The GetSubstitution processing (ECMA-262, `String.prototype.replace`)
that JavaScript applies to a string replacement when the pattern is a plain
string, so there are no capture groups: a dollar followed by a second dollar
yields one literal dollar, by an ampersand yields the matched text, by a
grave accent yields the text before the match, by an apostrophe yields the
text after the match; every other character, including an unrecognised
dollar escape, is copied literally. -/
def getSubstitution (matched before after : Str) : Str → Str
  | [] => []
  | c :: t =>
      if c = '$' then
        match t with
        | [] => ['$']
        | d :: t2 =>
            if d = '$' then '$' :: getSubstitution matched before after t2
            else if d = '&' then matched ++ getSubstitution matched before after t2
            else if d = graveChar then before ++ getSubstitution matched before after t2
            else if d = aposChar then after ++ getSubstitution matched before after t2
            else '$' :: d :: getSubstitution matched before after t2
      else c :: getSubstitution matched before after t

/-- Model of JavaScript `String.prototype.replace` with a plain-string
pattern and a plain-string replacement (used at src lines 161, 162, 523,
531): the first occurrence of `pat` is replaced by the
GetSubstitution-processed `rep`; if `pat` does not occur the string is
returned unchanged. -/
def replaceFirst (pat rep : Str) (s : Str) : Str :=
  match findFirst pat s with
  | none => s
  | some p => p.1 ++ getSubstitution pat p.1 p.2 rep ++ p.2

/-- Tag derivation of `#isMatchOne` (src 523 and 531):
`cls.replace('%value%', v).replace('_', '-')`. -/
def deriveTag (cls v : Str) : Str :=
  replaceFirst (("_").data) (("-").data) (replaceFirst (("%value%").data) v cls)

/-- One entry of the `KeyToVals` map (src 13): combination mode (the string
`or` or `and`), selected values, class pattern and query variable. -/
structure KeyVals where
  key  : Str
  oa   : Str
  vs   : List Str
  cls  : Str
  qvar : Str
  deriving DecidableEq

/-- `#isMatchOne` (src 520-538): under `or`, some selected value's derived tag
is carried by the item; under `and`, all of them are. -/
def isMatchOne (liClasses : List Str) (vs : List Str) (cls : Str) (isOr : Bool) : Bool :=
  if isOr then
    vs.any (fun v => liClasses.contains (deriveTag cls v))
  else
    vs.all (fun v => liClasses.contains (deriveTag cls v))

/-- `#isMatch` (src 501-508): every entry of the key-to-values map must let
the item through; the `isOr` flag is the comparison `'or' === oa`. -/
def isMatch (liClasses : List Str) (keyToVals : List KeyVals) : Bool :=
  keyToVals.all (fun kv => isMatchOne liClasses kv.vs kv.cls ((("or").data : Str) == kv.oa))

/-- C1: for every list item and every criterion set, `#isMatch` returns true
iff every present key's sub-check passes (conjunction over the present keys,
which extensionally captures the source's short-circuit on the first failing
key); within one key, OR passes iff the item carries at least one tag derived
from the selected values, AND passes iff it carries all of them; and with no
key present every item matches. -/
theorem c1_isMatch_semantics :
    (∀ li : List Str, isMatch li [] = true) ∧
    (∀ (li : List Str) (ktv : List KeyVals),
      isMatch li ktv = true ↔
        ∀ kv ∈ ktv,
          if kv.oa = ("or").data
          then ∃ v ∈ kv.vs, deriveTag kv.cls v ∈ li
          else ∀ v ∈ kv.vs, deriveTag kv.cls v ∈ li) := by
  refine ⟨fun li => rfl, fun li ktv => ?_⟩
  rw [isMatch, List.all_eq_true]
  refine forall_congr' fun kv => imp_congr_right fun _ => ?_
  by_cases h : kv.oa = ("or").data
  · simp [isMatchOne, h, List.any_eq_true, List.elem_iff]
  · have hb : ((("or").data : Str) == kv.oa) = false := by
      simp [beq_iff_eq]
      intro he
      exact h he.symm
    simp [isMatchOne, hb, h, List.all_eq_true, List.elem_iff]

/-- The bound controls of one filter key (src 84, 164-172): a `select` key
holds the selector's current value; a `checkbox` key holds the enabled-toggle
and relation-toggle (each `none` when the control does not exist in the
markup, `some b` when it exists with checked state `b`) and the value-toggles
as (value, checked) pairs (the `querySelectorAll` result always exists). -/
inductive UIControls where
  | select (value : Str)
  | checkbox (ena : Option Bool) (rel : Option Bool) (cbs : List (Str × Bool))
  deriving DecidableEq

/-- One entry of `#keyToUis` (src 84, 158-173): key, class pattern, query
variable and the bound controls. -/
structure KeyUi where
  key  : Str
  cls  : Str
  qvar : Str
  ui   : UIControls
  deriving DecidableEq

/-- `#getCheckedVals` (src 339-345): values of the checked value-toggles, in
control order. -/
def getCheckedVals (cbs : List (Str × Bool)) : List Str :=
  (cbs.filter (fun cb => cb.2)).map (fun cb => cb.1)

/-- `#getKeyToVals` (src 313-330) restricted to one key: a `select` key
contributes iff its value is non-empty (mode is always `or`); a `checkbox`
key contributes iff the enabled-toggle exists and is checked and the
relation-toggle exists (`if (ena && rel && cbs && ena.checked)`), with mode
`and` iff the relation-toggle is checked. -/
def keyToValsOf (u : KeyUi) : Option KeyVals :=
  match u.ui with
  | .select v =>
      if v ≠ [] then some ⟨u.key, ("or").data, [v], u.cls, u.qvar⟩ else none
  | .checkbox ena rel cbs =>
      match ena, rel with
      | some true, some r =>
          some ⟨u.key, (if r then ("and").data else ("or").data), getCheckedVals cbs,
                u.cls, u.qvar⟩
      | _, _ => none

/-- `#getKeyToVals` (src 313-330): the criteria snapshot over all keys, in
`#keyToUis` insertion order. -/
def getKeyToVals (uis : List KeyUi) : List KeyVals :=
  uis.filterMap keyToValsOf

/-- A multi-choice key whose enabled-toggle is on but whose single
value-toggle is unchecked: it contributes an empty value list to the
snapshot. -/
def uisC3 : List KeyUi :=
  [⟨("k").data, ("%value%").data, ("k").data,
    .checkbox (some true) (some false) [(("a").data, false)]⟩]

/-- C3 counterexample: the key `k` is present with an empty selected-value
set and OR mode, yet an item that would match the unconstrained set is
rejected — an empty value set under OR excludes everything, contradicting the
claim that it never does. -/
theorem c3_counterexample :
    (∃ kv ∈ getKeyToVals uisC3, kv.vs = [] ∧ kv.oa = ("or").data) ∧
    isMatch [("x").data] (getKeyToVals uisC3) = false ∧
    isMatch [("x").data] [] = true := by decide

/-- C3 amended: a present key with an empty selected-value set imposes no
constraint under AND combination, but under OR combination it matches no
item, hence excludes everything. -/
theorem c3_empty_values (li : List Str) (l1 l2 : List KeyVals) (kv : KeyVals)
    (hvs : kv.vs = []) :
    (kv.oa ≠ ("or").data → isMatch li (l1 ++ kv :: l2) = isMatch li (l1 ++ l2)) ∧
    (kv.oa = ("or").data → isMatch li (l1 ++ kv :: l2) = false) := by
  constructor
  · intro hne
    have h2 : ¬((("or").data : Str) = kv.oa) := fun he => hne he.symm
    simp [isMatch, isMatchOne, hvs, h2]
  · intro he
    have h2 : ((("or").data : Str) = kv.oa) := he.symm
    simp [isMatch, isMatchOne, hvs, h2]
    intro _ h3
    exact absurd h2 h3

/-- Witness for the amended C3 at a concrete input. -/
theorem c3_witness :
    isMatch [("x").data]
      ([] ++ (⟨("k").data, ("or").data, [], ("%value%").data, ("k").data⟩ : KeyVals) :: [])
      = false :=
  (c3_empty_values [("x").data] [] [] _ rfl).2 rfl

/-- A multi-choice key whose enabled-toggle exists and is on but whose
relation-toggle does not exist in the markup. -/
def uiC7 : KeyUi :=
  ⟨("k").data, ("%value%").data, ("k").data, .checkbox (some true) none []⟩

/-- C7 counterexample: with the enabled-toggle on but no relation-toggle
control, the key is absent from the snapshot — contradicting the claim that
such a key is present. -/
theorem c7_counterexample :
    keyToValsOf uiC7 = none ∧ getKeyToVals [uiC7] = [] := by decide

/-- C7 amended: a key is present in the snapshot iff, for a single-choice
key, its selected value is non-empty, and for a multi-choice key, the
enabled-toggle exists and is checked and the relation-toggle also exists. -/
theorem c7_presence (u : KeyUi) :
    (keyToValsOf u).isSome = true ↔
      (match u.ui with
       | .select v => v ≠ []
       | .checkbox ena rel _ => ena = some true ∧ rel.isSome = true) := by
  obtain ⟨key, cls, qvar, ui⟩ := u
  cases ui with
  | select v =>
      by_cases h : v = [] <;> simp [keyToValsOf, h]
  | checkbox ena rel cbs =>
      cases ena with
      | none => simp [keyToValsOf]
      | some b =>
          cases b with
          | false => cases rel <;> simp [keyToValsOf]
          | true => cases rel <;> simp [keyToValsOf]

theorem findFirst_prefix_case (pat s : Str) (h : pat.isPrefixOf s = true) :
    findFirst pat s = some ([], s.drop pat.length) := by
  cases s with
  | nil => rw [findFirst, if_pos h]
  | cons c t => rw [findFirst, if_pos h]

theorem findFirst_cons_neg (pat : Str) (c : Char) (t : Str)
    (h : pat.isPrefixOf (c :: t) = false) :
    findFirst pat (c :: t) = (findFirst pat t).map (fun p => (c :: p.1, p.2)) := by
  rw [findFirst, if_neg (by simp [h])]

theorem findFirst_at_first (pat a b : Str)
    (ha : ∀ i, i < a.length → pat.isPrefixOf ((a ++ pat ++ b).drop i) = false) :
    findFirst pat (a ++ pat ++ b) = some (a, b) := by
  induction a with
  | nil =>
      have hp : pat.isPrefixOf (pat ++ b) = true := by
        rw [List.isPrefixOf_iff_prefix]
        exact List.prefix_append pat b
      simp only [List.nil_append]
      rw [findFirst_prefix_case pat (pat ++ b) hp, List.drop_left]
  | cons c t ih =>
      have h0 : pat.isPrefixOf (c :: (t ++ pat ++ b)) = false := by
        have := ha 0 (by simp)
        simpa using this
      have ih2 : ∀ i, i < t.length → pat.isPrefixOf ((t ++ pat ++ b).drop i) = false := by
        intro i hi
        have := ha (i + 1) (by simp; omega)
        simpa using this
      simp only [List.cons_append]
      rw [findFirst_cons_neg pat c _ h0, ih ih2]
      rfl

theorem isPrefixOf_single_cons (c d : Char) (t : Str) :
    ([c] : Str).isPrefixOf (d :: t) = (c == d) := by
  simp [List.isPrefixOf]

theorem findFirst_single (c : Char) (x y : Str) (hx : c ∉ x) :
    findFirst [c] (x ++ c :: y) = some (x, y) := by
  induction x with
  | nil =>
      have hp : ([c] : Str).isPrefixOf (c :: y) = true := by
        simp [isPrefixOf_single_cons]
      simp only [List.nil_append]
      rw [findFirst_prefix_case [c] (c :: y) hp]
      simp
  | cons d t ih =>
      have hcd : (c == d) = false := by
        have : ¬(c = d) := fun h => hx (by simp [h])
        simpa using this
      have ht : c ∉ t := fun h => hx (List.mem_cons_of_mem d h)
      simp only [List.cons_append]
      rw [findFirst_cons_neg [c] d _ (by rw [isPrefixOf_single_cons]; exact hcd), ih ht]
      rfl

theorem findFirst_single_none (c : Char) (s : Str) (h : c ∉ s) :
    findFirst [c] s = none := by
  induction s with
  | nil => rw [findFirst]; simp [List.isPrefixOf]
  | cons d t ih =>
      have hcd : (c == d) = false := by
        have : ¬(c = d) := fun he => h (by simp [he])
        simpa using this
      have ht : c ∉ t := fun hm => h (List.mem_cons_of_mem d hm)
      rw [findFirst_cons_neg [c] d t (by rw [isPrefixOf_single_cons]; exact hcd), ih ht]
      rfl

theorem getSubstitution_cons_ne (m bef aft : Str) (c : Char) (t : Str)
    (hc : ¬ (c = '$')) :
    getSubstitution m bef aft (c :: t) = c :: getSubstitution m bef aft t := by
  rw [getSubstitution.eq_def]
  simp [hc]

theorem getSubstitution_no_dollar (m bef aft rep : Str) (h : '$' ∉ rep) :
    getSubstitution m bef aft rep = rep := by
  induction rep with
  | nil => rfl
  | cons c t ih =>
      have hcne : ¬ (c = '$') := fun he => h (by simp [he])
      have ht : '$' ∉ t := fun hm => h (List.mem_cons_of_mem c hm)
      rw [getSubstitution_cons_ne m bef aft c t hcne, ih ht]

theorem replaceFirst_at_first (pat rep a b : Str) (hd : '$' ∉ rep)
    (ha : ∀ i, i < a.length → pat.isPrefixOf ((a ++ pat ++ b).drop i) = false) :
    replaceFirst pat rep (a ++ pat ++ b) = a ++ rep ++ b := by
  rw [replaceFirst, findFirst_at_first pat a b ha]
  show a ++ getSubstitution pat a b rep ++ b = a ++ rep ++ b
  rw [getSubstitution_no_dollar pat a b rep hd]

theorem replaceFirst_single (c : Char) (rep x y : Str) (hd : '$' ∉ rep)
    (hx : c ∉ x) :
    replaceFirst [c] rep (x ++ c :: y) = x ++ rep ++ y := by
  rw [replaceFirst, findFirst_single c x y hx]
  show x ++ getSubstitution [c] x y rep ++ y = x ++ rep ++ y
  rw [getSubstitution_no_dollar [c] x y rep hd]

theorem replaceFirst_single_none (c : Char) (rep s : Str) (h : c ∉ s) :
    replaceFirst [c] rep s = s := by
  rw [replaceFirst, findFirst_single_none c s h]

/-- C10 counterexample: for the class pattern `x%value%` and the selected
value `$&`, plain substitution would derive the tag `x$&`, but JavaScript
replaces the `$&` escape in the replacement string by the matched pattern,
so the code derives `x%value%` instead. -/
theorem c10_counterexample :
    deriveTag (("x%value%").data) (("$&").data) = ("x%value%").data ∧
    deriveTag (("x%value%").data) (("$&").data) ≠ ("x$&").data := by decide

/-- C10 amended: for every selected value that contains no dollar character,
the tag matched against an item is derived by substituting the value for the
first occurrence of the `%value%` placeholder and then replacing only the
first underscore of the resulting string with a hyphen; any later
underscores (the suffix `y` below is arbitrary) are left unchanged, and a
result with no underscore at all is left as is.  For values containing a
dollar, the replacement-string escapes apply instead. -/
theorem c10_tag_derivation :
    (∀ a b v x y : Str, '$' ∉ v →
       (∀ i, i < a.length →
         (("%value%").data).isPrefixOf ((a ++ ("%value%").data ++ b).drop i) = false) →
       a ++ v ++ b = x ++ '_' :: y → '_' ∉ x →
       deriveTag (a ++ ("%value%").data ++ b) v = x ++ '-' :: y) ∧
    (∀ a b v : Str, '$' ∉ v →
       (∀ i, i < a.length →
         (("%value%").data).isPrefixOf ((a ++ ("%value%").data ++ b).drop i) = false) →
       '_' ∉ a ++ v ++ b →
       deriveTag (a ++ ("%value%").data ++ b) v = a ++ v ++ b) := by
  constructor
  · intro a b v x y hd ha hsub hx
    unfold deriveTag
    rw [replaceFirst_at_first _ _ _ _ hd ha, hsub,
      replaceFirst_single '_' (("-").data) x y (by decide) hx]
    simp
  · intro a b v hd ha hnu
    unfold deriveTag
    rw [replaceFirst_at_first _ _ _ _ hd ha, replaceFirst_single_none '_' _ _ hnu]

/-- Witness for the amended C10 at a concrete input: the dollar-free value
`red` substituted into the pattern `%value%_tag_x` gives `red_tag_x`, whose
first underscore becomes a hyphen while the second stays: `red-tag_x`. -/
theorem c10_witness :
    deriveTag ([] ++ ("%value%").data ++ ("_tag_x").data) (("red").data)
      = ("red").data ++ '-' :: ("tag_x").data :=
  c10_tag_derivation.1 [] (("_tag_x").data) (("red").data) (("red").data) (("tag_x").data)
    (by decide)
    (by intro i hi; simp only [List.length_nil] at hi; omega)
    (by decide) (by decide)

/-- `#isCheckedAtLeastOne` (src 286-291). -/
def isCheckedAtLeastOne (cbs : List Bool) : Bool := cbs.any (fun b => b)

/-- `#isCheckedAll` (src 300-305). -/
def isCheckedAll (cbs : List Bool) : Bool := cbs.all (fun b => b)

/-- The enabled-toggle click handler (src 257-265) as a transition on checked
states; the browser flips the clicked toggle before the handler runs, so the
handler observes `!ena`.  The two `if`s run in sequence as in the source. -/
def clickEnabled (ena : Bool) (cbs : List Bool) : Bool × List Bool :=
  let ena2 := !ena
  let cbs2 := if ena2 && !(isCheckedAtLeastOne cbs) then cbs.map (fun _ => true) else cbs
  let cbs3 := if !ena2 && isCheckedAll cbs2 then cbs2.map (fun _ => false) else cbs2
  (ena2, cbs3)

/-- A value-toggle click handler (src 266-271): the browser flips toggle `i`,
then the handler recomputes the master toggle as `#isCheckedAtLeastOne`. -/
def clickValue (cbs : List Bool) (i : Nat) : Bool × List Bool :=
  let cbs2 := cbs.set i (!(cbs.getD i false))
  (isCheckedAtLeastOne cbs2, cbs2)

/-- C6: toggling the master enabled-toggle on with no value-toggle selected
selects all value-toggles; toggling it off with all selected deselects all;
after any value-toggle click the master equals "at least one selected" — in
particular deselecting one toggle while another selected toggle remains
leaves the master checked, and deselecting the only selected toggle unchecks
it. -/
theorem c6_master_toggle :
    (∀ cbs : List Bool, isCheckedAtLeastOne cbs = false →
       clickEnabled false cbs = (true, cbs.map (fun _ => true))) ∧
    (∀ cbs : List Bool, isCheckedAll cbs = true →
       clickEnabled true cbs = (false, cbs.map (fun _ => false))) ∧
    (∀ (cbs : List Bool) (i : Nat),
       (clickValue cbs i).1 = isCheckedAtLeastOne (clickValue cbs i).2) ∧
    (∀ (cbs : List Bool) (i j : Nat), i < cbs.length → j < cbs.length → j ≠ i →
       isCheckedAll cbs = true → (clickValue cbs i).1 = true) ∧
    (∀ (cbs : List Bool) (i : Nat), i < cbs.length → cbs.getD i false = true →
       (∀ j, j < cbs.length → j ≠ i → cbs.getD j false = false) →
       (clickValue cbs i).1 = false) := by
  refine ⟨?_, ?_, fun cbs i => rfl, ?_, ?_⟩
  · intro cbs h
    simp [clickEnabled, h]
  · intro cbs h
    simp [clickEnabled, h]
  · intro cbs i j hi hj hji hall
    have hjv : cbs[j] = true := by
      rw [isCheckedAll, List.all_eq_true] at hall
      exact hall cbs[j] (List.getElem_mem hj)
    have hlen : j < (cbs.set i (!(cbs.getD i false))).length := by
      simpa using hj
    have hset : (cbs.set i (!(cbs.getD i false)))[j] = true := by
      rw [List.getElem_set_ne (fun h => hji h.symm)]
      exact hjv
    simp only [clickValue, isCheckedAtLeastOne, List.any_eq_true]
    exact ⟨_, List.getElem_mem hlen, hset⟩
  · intro cbs i hi hiv hrest
    have hs : cbs.set i (!(cbs.getD i false)) = cbs.set i false := by
      rw [hiv]
      rfl
    simp only [clickValue, hs, isCheckedAtLeastOne, List.any_eq_false]
    intro b hb
    rw [List.mem_iff_getElem] at hb
    obtain ⟨k, hk, hbk⟩ := hb
    have hk2 : k < cbs.length := by simpa using hk
    by_cases hki : k = i
    · subst hki
      rw [List.getElem_set_self] at hbk
      simp [← hbk]
    · rw [List.getElem_set_ne (fun h => hki h.symm)] at hbk
      have h5 := hrest k hk2 hki
      rw [List.getD_eq_getElem cbs false hk2] at h5
      simp [← hbk, h5]

/-- Witness for C6 at concrete inputs: enabling with nothing selected checks
both toggles; unchecking toggle 0 of `[true, true]` leaves the master on. -/
theorem c6_witness :
    clickEnabled false [false, false] = (true, [true, true]) ∧
    (clickValue [true, true] 0).1 = true :=
  ⟨c6_master_toggle.1 [false, false] rfl,
   c6_master_toggle.2.2.2.1 [true, true] 0 1 (by decide) (by decide) (by decide) (by decide)⟩

/-- The parts of `document.location` that `#setUrlParams` reads. -/
structure Location where
  origin   : Str
  pathname : Str
  hash     : Str
  deriving DecidableEq

/-- JavaScript `Array.prototype.join` with separator `sep` (src 397, 402). -/
def joinSep (sep : Str) : List Str → Str
  | [] => []
  | [s] => s
  | s :: rest => s ++ sep ++ joinSep sep rest

/-- The `rs` table of `#setUrlParams` (src 393): the value prefix for each
combination mode — empty for `or`, the marker `.` for `and`. -/
def rsOf (oa : Str) : Str := if oa = ("and").data then (".").data else []

/-- The encoded value of one pair (src 397): `rs[oa]` followed by
`vs.join(',')`. -/
def encVal (kv : KeyVals) : Str := rsOf kv.oa ++ joinSep ((",").data) kv.vs

/-- One encoded pair (src 397): the template `qvar=rs[oa]vs.join(',')`. -/
def pairOf (kv : KeyVals) : Str := kv.qvar ++ ("=").data ++ encVal kv

/-- The pair list `ps` of `#setUrlParams` (src 394-399): one pair per key
with a non-empty value list (`if (vs.length)`). -/
def urlPairs (ktv : List KeyVals) : List Str :=
  ktv.filterMap (fun kv => if kv.vs.length ≠ 0 then some (pairOf kv) else none)

/-- `#setUrlParams` (src 392-407): the URL string handed to
`history.replaceState` — `'?' + ps.join('&')` when pairs exist, otherwise
`location.origin + location.pathname`; `location.hash` is appended verbatim
in both cases. -/
def setUrlParams (ktv : List KeyVals) (loc : Location) : Str :=
  let ps := urlPairs ktv
  let url := if 0 < ps.length then '?' :: joinSep (("&").data) ps
             else loc.origin ++ loc.pathname
  url ++ loc.hash

theorem urlPairs_eq_filter (ktv : List KeyVals) :
    urlPairs ktv = (ktv.filter (fun kv => decide (kv.vs ≠ []))).map pairOf := by
  induction ktv with
  | nil => rfl
  | cons kv rest ih =>
      rw [urlPairs, List.filterMap_cons, List.filter_cons]
      by_cases h : kv.vs = []
      · have h1 : ¬ (kv.vs.length ≠ 0) := by simp [h]
        rw [if_neg h1]
        simp only [h]
        simpa [urlPairs] using ih
      · have h1 : kv.vs.length ≠ 0 := by simpa [List.length_eq_zero] using h
        rw [if_pos h1]
        simp [h]
        simpa [urlPairs] using ih

/-- C4: `#setUrlParams` emits exactly one `urlVar=value` pair per present key
with a non-empty value list, in snapshot order, values joined by a literal
comma, prefixed by the marker `.` exactly when the key's mode is `and` and by
nothing for `or`; keys with an empty value list contribute no pair; when no
pair results the rewritten URL is `origin ++ pathname` with no query string;
and the fragment `hash` is appended verbatim in every case. -/
theorem c4_setUrlParams (ktv : List KeyVals) (loc : Location) :
    setUrlParams ktv loc =
      (if (ktv.filter fun kv => decide (kv.vs ≠ [])) = []
       then loc.origin ++ loc.pathname
       else '?' :: joinSep (("&").data)
         ((ktv.filter fun kv => decide (kv.vs ≠ [])).map (fun kv =>
           kv.qvar ++ '=' ::
             ((if kv.oa = ("and").data then ((".").data : Str) else []) ++
               joinSep ((",").data) kv.vs))))
      ++ loc.hash := by
  have hpair : ∀ kv ∈ (ktv.filter fun kv => decide (kv.vs ≠ [])),
      pairOf kv = kv.qvar ++ '=' ::
        ((if kv.oa = ("and").data then ((".").data : Str) else []) ++
          joinSep ((",").data) kv.vs) := by
    intro kv _
    simp [pairOf, encVal, rsOf]
  have hmap := List.map_congr_left hpair
  simp only [setUrlParams, urlPairs_eq_filter, hmap]
  by_cases h : (ktv.filter fun kv => decide (kv.vs ≠ [])) = []
  · rw [h]
    simp
  · have hlen :
        0 < ((ktv.filter fun kv => decide (kv.vs ≠ [])).map (fun kv =>
          kv.qvar ++ '=' ::
            ((if kv.oa = ("and").data then ((".").data : Str) else []) ++
              joinSep ((",").data) kv.vs))).length := by
      rw [List.length_map, List.length_pos]
      exact h
    rw [if_pos hlen, if_neg h]

/-- One list item (an `LI` element): its class list and its `hidden`
attribute. -/
structure Item where
  classes : List Str
  hidden  : Bool
  deriving DecidableEq

/-- One structural child of the bound list container: a heading (carrying its
`data-depth`, its `data-count` and its `hidden` attribute) or a list block
(an `OL`/`UL` with its items and its stored `data-count`). -/
inductive Child where
  | heading (depth : Nat) (count : Nat) (hidden : Bool)
  | block (items : List Item) (count : Nat)
  deriving DecidableEq

/-- `#filterLists` (src 473-491): on each list block, every item's `hidden`
attribute becomes the negated match result and the block's `data-count`
becomes the number of visible items; headings are untouched. -/
def filterLists (ktv : List KeyVals) (children : List Child) : List Child :=
  children.map (fun e =>
    match e with
    | .heading d k h => .heading d k h
    | .block items _ =>
        let filtered := items.map (fun li => { li with hidden := !(isMatch li.classes ktv) })
        .block filtered ((filtered.filter (fun li => !li.hidden)).length))

/-- Pass 1 of `#countUpItems` (src 550-554): every heading's `data-count` is
reset to `'0'`; blocks keep their counts. -/
def resetHeadingCounts (children : List Child) : List Child :=
  children.map (fun e =>
    match e with
    | .heading d _ h => .heading d 0 h
    | b => b)

/-- The stack-popping loop of `#countUpItems` (src 561-565): entries are
`(index, depth)` pairs with the top of the stack at the head; the loop pops
while the new depth `hi` is not greater than the top's depth. -/
def popWhile (hi : Nat) : List (Nat × Nat) → List (Nat × Nat)
  | [] => []
  | (l, ld) :: rest => if hi > ld then (l, ld) :: rest else popWhile hi rest

/-- The per-open-heading update of `#countUpItems` (src 569-577): add the
block count `c` to the heading at index `j`, store the sum, and set the
`hidden` attribute iff the sum is zero. -/
def bumpHeading (arr : List Child) (j : Nat) (c : Nat) : List Child :=
  match arr[j]? with
  | some (.heading d k _) => arr.set j (.heading d (k + c) (k + c == 0))
  | _ => arr

/-- The block branch of `#countUpItems` (src 567-578): every heading on the
stack receives the block's count.  The source iterates the stack bottom to
top; the fold order is immaterial since the entries point at distinct
indices. -/
def applyBlock (c : Nat) (arr : List Child) (hs : List (Nat × Nat)) : List Child :=
  hs.foldl (fun a jd => bumpHeading a jd.1 c) arr

/-- The scan of `#countUpItems` pass 2 (src 555-579), walking the container's
children at position `i` while threading the updated children `arr` and the
stack `hs`.  Only already-visited indices (those on the stack) are ever
modified, so walking the initial snapshot is equivalent to the source's live
iteration. -/
def countUpRun : List Child → Nat → List Child → List (Nat × Nat) → List Child
  | [], _, arr, _ => arr
  | .heading d _ _ :: rest, i, arr, hs =>
      countUpRun rest (i + 1) arr ((i, d) :: popWhile d hs)
  | .block _ c :: rest, i, arr, hs =>
      countUpRun rest (i + 1) (applyBlock c arr hs) hs

/-- `#countUpItems` (src 549-580): reset pass followed by the aggregation
scan. -/
def countUpItems (children : List Child) : List Child :=
  let arr := resetHeadingCounts children
  countUpRun arr 0 arr []

/-- Specification-side closed form: the sum of the counts of the list blocks
following a heading of depth `d`, up to (excluding) the next heading of
equal-or-lesser depth. -/
def blockCountsUntil (d : Nat) : List Child → Nat
  | [] => 0
  | .heading e _ _ :: rest => if e ≤ d then 0 else blockCountsUntil d rest
  | .block _ c :: rest => c + blockCountsUntil d rest

/-- Specification-side: whether at least one list block follows a heading of
depth `d` before the next heading of equal-or-lesser depth. -/
def hasBlockUntil (d : Nat) : List Child → Bool
  | [] => false
  | .heading e _ _ :: rest => if e ≤ d then false else hasBlockUntil d rest
  | .block _ _ :: _ => true

theorem popWhile_sublist (hi : Nat) (hs : List (Nat × Nat)) :
    (popWhile hi hs).Sublist hs := by
  induction hs with
  | nil => exact List.Sublist.refl []
  | cons jd t ih =>
      obtain ⟨l, ld⟩ := jd
      rw [popWhile]
      by_cases h : hi > ld
      · rw [if_pos h]
      · rw [if_neg h]
        exact ih.trans (List.sublist_cons_self (l, ld) t)

theorem popWhile_lt (hi : Nat) (hs : List (Nat × Nat))
    (hsort : hs.Pairwise (fun p q => q.2 < p.2)) :
    ∀ jd ∈ popWhile hi hs, jd.2 < hi := by
  induction hs with
  | nil => intro jd h; cases h
  | cons jd0 t ih =>
      obtain ⟨l, ld⟩ := jd0
      rw [List.pairwise_cons] at hsort
      intro jd hmem
      rw [popWhile] at hmem
      by_cases h : hi > ld
      · rw [if_pos h] at hmem
        rcases List.mem_cons.mp hmem with rfl | hmem2
        · exact h
        · exact Nat.lt_trans (hsort.1 jd hmem2) h
      · rw [if_neg h] at hmem
        exact ih hsort.2 jd hmem

theorem mem_popWhile_of_lt (hi : Nat) (hs : List (Nat × Nat)) :
    ∀ jd ∈ hs, jd.2 < hi → jd ∈ popWhile hi hs := by
  induction hs with
  | nil => intro jd h; cases h
  | cons jd0 t ih =>
      obtain ⟨l, ld⟩ := jd0
      intro jd hmem hlt
      rw [popWhile]
      by_cases h : hi > ld
      · rw [if_pos h]
        exact hmem
      · rw [if_neg h]
        rcases List.mem_cons.mp hmem with rfl | hmem2
        · exact absurd hlt h
        · exact ih jd hmem2 hlt

theorem bumpHeading_other (arr : List Child) (j j2 c : Nat) (hne : j ≠ j2) :
    (bumpHeading arr j c)[j2]? = arr[j2]? := by
  rw [bumpHeading]
  cases h : arr[j]? with
  | none => rfl
  | some e =>
      cases e with
      | heading d k hid => exact List.getElem?_set_ne hne
      | block items k => rfl

theorem bumpHeading_self (arr : List Child) (j c k d : Nat) (h : Bool)
    (hj : arr[j]? = some (.heading d k h)) :
    (bumpHeading arr j c)[j]? = some (.heading d (k + c) ((k + c) == 0)) := by
  have hlt : j < arr.length := (List.getElem?_eq_some.mp hj).1
  rw [bumpHeading, hj]
  rw [List.getElem?_set_self]
  exact hlt

theorem applyBlock_cons (c : Nat) (arr : List Child) (jd : Nat × Nat)
    (t : List (Nat × Nat)) :
    applyBlock c arr (jd :: t) = applyBlock c (bumpHeading arr jd.1 c) t := rfl

theorem applyBlock_other (c : Nat) (hs : List (Nat × Nat)) :
    ∀ (arr : List Child) (j : Nat), j ∉ hs.map Prod.fst →
    (applyBlock c arr hs)[j]? = arr[j]? := by
  induction hs with
  | nil => intro arr j _; rfl
  | cons jd t ih =>
      intro arr j hj
      rw [List.map_cons, List.mem_cons] at hj
      push_neg at hj
      rw [applyBlock_cons, ih _ j hj.2, bumpHeading_other arr jd.1 j c (fun he => hj.1 he.symm)]

theorem applyBlock_mem (c : Nat) (hs : List (Nat × Nat)) :
    ∀ (arr : List Child), (hs.map Prod.fst).Nodup →
    ∀ jd ∈ hs, ∀ (k d : Nat) (h : Bool), arr[jd.1]? = some (.heading d k h) →
    (applyBlock c arr hs)[jd.1]? = some (.heading d (k + c) ((k + c) == 0)) := by
  induction hs with
  | nil => intro arr _ jd hmem; cases hmem
  | cons jd0 t ih =>
      intro arr hnd jd hmem k d h harr
      rw [List.map_cons, List.nodup_cons] at hnd
      rw [applyBlock_cons]
      rcases List.mem_cons.mp hmem with rfl | hmem2
      · have hb := bumpHeading_self arr jd.1 c k d h harr
        rw [applyBlock_other c t _ jd.1 hnd.1]
        exact hb
      · have hne : jd0.1 ≠ jd.1 := by
          intro he
          exact hnd.1 (he ▸ List.mem_map_of_mem Prod.fst hmem2)
        have harr2 : (bumpHeading arr jd0.1 c)[jd.1]? = some (.heading d k h) := by
          rw [bumpHeading_other arr jd0.1 jd.1 c hne]
          exact harr
        exact ih _ hnd.2 jd hmem2 k d h harr2

theorem blockCountsUntil_zero_of_no_block (d : Nat) (l : List Child)
    (h : hasBlockUntil d l = false) : blockCountsUntil d l = 0 := by
  induction l with
  | nil => rfl
  | cons e rest ih =>
      cases e with
      | heading e2 k hid =>
          rw [hasBlockUntil] at h
          rw [blockCountsUntil]
          by_cases he : e2 ≤ d
          · rw [if_pos he]
          · rw [if_neg he]
            rw [if_neg he] at h
            exact ih h
      | block items c =>
          rw [hasBlockUntil] at h
          cases h

theorem countUpRun_spec (l : List Child) :
    ∀ (i : Nat) (arr : List Child) (hs : List (Nat × Nat)),
    (∀ k : Nat, l[k]? = arr[i + k]?) →
    (∀ jd ∈ hs, jd.1 < i) →
    (hs.map Prod.fst).Nodup →
    hs.Pairwise (fun p q => q.2 < p.2) →
    ((∀ jd ∈ hs, ∀ (k : Nat) (h : Bool), arr[jd.1]? = some (.heading jd.2 k h) →
        (countUpRun l i arr hs)[jd.1]? =
          some (.heading jd.2 (k + blockCountsUntil jd.2 l)
            (if hasBlockUntil jd.2 l = true
             then ((k + blockCountsUntil jd.2 l) == 0) else h))) ∧
     (∀ (k2 d c : Nat) (h : Bool), l[k2]? = some (.heading d c h) →
        (countUpRun l i arr hs)[i + k2]? =
          some (.heading d (c + blockCountsUntil d (l.drop (k2 + 1)))
            (if hasBlockUntil d (l.drop (k2 + 1)) = true
             then ((c + blockCountsUntil d (l.drop (k2 + 1))) == 0) else h))) ∧
     (∀ j : Nat, j ∉ hs.map Prod.fst → j < i →
        (countUpRun l i arr hs)[j]? = arr[j]?)) := by
  induction l with
  | nil =>
      intro i arr hs hsuff hbound hnd hsort
      refine ⟨?_, ?_, ?_⟩
      · intro jd hmem k h harr
        rw [countUpRun]
        simpa [blockCountsUntil, hasBlockUntil] using harr
      · intro k2 d c h hl
        rw [List.getElem?_nil] at hl
        cases hl
      · intro j _ _
        rw [countUpRun]
  | cons e rest ih =>
      intro i arr hs hsuff hbound hnd hsort
      cases e with
      | heading d0 c0 h0 =>
          have harr_i : arr[i]? = some (Child.heading d0 c0 h0) := by
            have h00 := hsuff 0
            rw [List.getElem?_cons_zero, Nat.add_zero] at h00
            exact h00.symm
          have hsuff2 : ∀ k : Nat, rest[k]? = arr[(i + 1) + k]? := by
            intro k
            have hk := hsuff (k + 1)
            rw [List.getElem?_cons_succ] at hk
            rw [hk]
            congr 1
            omega
          have hbound2 : ∀ jd ∈ (i, d0) :: popWhile d0 hs, jd.1 < i + 1 := by
            intro jd hmem
            rcases List.mem_cons.mp hmem with h2 | hmem2
            · rw [h2]
              omega
            · exact Nat.lt_trans (hbound jd ((popWhile_sublist d0 hs).subset hmem2))
                (Nat.lt_succ_self i)
          have hnd2 : (((i, d0) :: popWhile d0 hs).map Prod.fst).Nodup := by
            rw [List.map_cons, List.nodup_cons]
            constructor
            · intro hmem
              rw [List.mem_map] at hmem
              obtain ⟨jd, hjd, hfst⟩ := hmem
              have := hbound jd ((popWhile_sublist d0 hs).subset hjd)
              omega
            · exact hnd.sublist ((popWhile_sublist d0 hs).map Prod.fst)
          have hsort2 : ((i, d0) :: popWhile d0 hs).Pairwise (fun p q => q.2 < p.2) := by
            rw [List.pairwise_cons]
            exact ⟨fun q hq => popWhile_lt d0 hs hsort q hq,
                   hsort.sublist (popWhile_sublist d0 hs)⟩
          have IH := ih (i + 1) arr ((i, d0) :: popWhile d0 hs) hsuff2 hbound2 hnd2 hsort2
          refine ⟨?_, ?_, ?_⟩
          · intro jd hmem k h harr
            rw [countUpRun]
            by_cases hcase : jd.2 < d0
            · have hmem2 : jd ∈ (i, d0) :: popWhile d0 hs :=
                List.mem_cons_of_mem _ (mem_popWhile_of_lt d0 hs jd hmem hcase)
              have hc := IH.1 jd hmem2 k h harr
              rw [hc]
              have hne : ¬ (d0 ≤ jd.2) := by omega
              simp only [blockCountsUntil, hasBlockUntil, if_neg hne]
            · have hd0 : d0 ≤ jd.2 := by omega
              have hnotin : jd.1 ∉ ((i, d0) :: popWhile d0 hs).map Prod.fst := by
                rw [List.map_cons, List.mem_cons]
                push_neg
                constructor
                · have := hbound jd hmem
                  omega
                · intro hin
                  rw [List.mem_map] at hin
                  obtain ⟨q, hq, hfst⟩ := hin
                  have hqhs : q ∈ hs := (popWhile_sublist d0 hs).subset hq
                  have hqeq : q = jd := List.inj_on_of_nodup_map hnd hqhs hmem hfst
                  have hlt := popWhile_lt d0 hs hsort q hq
                  rw [hqeq] at hlt
                  omega
              have hframe := IH.2.2 jd.1 hnotin (by have := hbound jd hmem; omega)
              rw [hframe, harr]
              simp [blockCountsUntil, hasBlockUntil, if_pos hd0]
          · intro k2 d c h hl
            rw [countUpRun]
            cases k2 with
            | zero =>
                rw [List.getElem?_cons_zero, Option.some.injEq, Child.heading.injEq] at hl
                obtain ⟨rfl, rfl, rfl⟩ := hl
                have hc := IH.1 (i, d0) (List.mem_cons_self _ _) c0 h0 harr_i
                rw [Nat.add_zero]
                simpa using hc
            | succ k2 =>
                rw [List.getElem?_cons_succ] at hl
                have hc := IH.2.1 k2 d c h hl
                have heq : i + (k2 + 1) = (i + 1) + k2 := by omega
                rw [heq]
                simpa [List.drop_succ_cons] using hc
          · intro j hj hlt
            rw [countUpRun]
            have hj2 : j ∉ ((i, d0) :: popWhile d0 hs).map Prod.fst := by
              rw [List.map_cons, List.mem_cons]
              push_neg
              refine ⟨by omega, ?_⟩
              intro hin
              exact hj (((popWhile_sublist d0 hs).map Prod.fst).subset hin)
            exact IH.2.2 j hj2 (by omega)
      | block items c0 =>
          have hother : ∀ j : Nat, j ∉ hs.map Prod.fst →
              (applyBlock c0 arr hs)[j]? = arr[j]? := fun j hj =>
            applyBlock_other c0 hs arr j hj
          have hhigh : ∀ k : Nat, ((i + 1) + k) ∉ hs.map Prod.fst := by
            intro k hin
            rw [List.mem_map] at hin
            obtain ⟨jd, hjd, hfst⟩ := hin
            have := hbound jd hjd
            omega
          have hsuff2 : ∀ k : Nat, rest[k]? = (applyBlock c0 arr hs)[(i + 1) + k]? := by
            intro k
            rw [hother _ (hhigh k)]
            have hk := hsuff (k + 1)
            rw [List.getElem?_cons_succ] at hk
            rw [hk]
            congr 1
            omega
          have IH := ih (i + 1) (applyBlock c0 arr hs) hs hsuff2
            (fun jd hm => Nat.lt_trans (hbound jd hm) (Nat.lt_succ_self i)) hnd hsort
          refine ⟨?_, ?_, ?_⟩
          · intro jd hmem k h harr
            rw [countUpRun]
            have hb := applyBlock_mem c0 hs arr hnd jd hmem k jd.2 h harr
            have hc := IH.1 jd hmem (k + c0) ((k + c0) == 0) hb
            rw [hc]
            simp only [blockCountsUntil, hasBlockUntil]
            cases hHB : hasBlockUntil jd.2 rest with
            | true => simp [hHB, Nat.add_assoc]
            | false =>
                have hz := blockCountsUntil_zero_of_no_block jd.2 rest hHB
                simp [hHB, hz, Nat.add_assoc]
          · intro k2 d c h hl
            rw [countUpRun]
            cases k2 with
            | zero =>
                rw [List.getElem?_cons_zero] at hl
                simp at hl
            | succ k2 =>
                rw [List.getElem?_cons_succ] at hl
                have hc := IH.2.1 k2 d c h hl
                have heq : i + (k2 + 1) = (i + 1) + k2 := by omega
                rw [heq]
                simpa [List.drop_succ_cons] using hc
          · intro j hj hlt
            rw [countUpRun]
            rw [IH.2.2 j hj (by omega)]
            exact hother j hj

theorem blockCountsUntil_reset (d : Nat) (l : List Child) :
    blockCountsUntil d (resetHeadingCounts l) = blockCountsUntil d l := by
  induction l with
  | nil => rfl
  | cons e rest ih =>
      cases e with
      | heading e2 k hid =>
          simp only [resetHeadingCounts, List.map_cons, blockCountsUntil]
          rw [show resetHeadingCounts rest = List.map _ rest from rfl] at ih
          rw [ih]
      | block items c =>
          simp only [resetHeadingCounts, List.map_cons, blockCountsUntil]
          rw [show resetHeadingCounts rest = List.map _ rest from rfl] at ih
          rw [ih]

theorem hasBlockUntil_reset (d : Nat) (l : List Child) :
    hasBlockUntil d (resetHeadingCounts l) = hasBlockUntil d l := by
  induction l with
  | nil => rfl
  | cons e rest ih =>
      cases e with
      | heading e2 k hid =>
          simp only [resetHeadingCounts, List.map_cons, hasBlockUntil]
          rw [show resetHeadingCounts rest = List.map _ rest from rfl] at ih
          rw [ih]
      | block items c =>
          simp only [resetHeadingCounts, List.map_cons, hasBlockUntil]

/-- C2 counterexample: a single heading followed by no list block.  Its count
is reset to 0, but `#countUpItems` never touches its `hidden` attribute, so
it stays visible with aggregated count 0 — the claim demands `hidden`. -/
theorem c2_counterexample :
    countUpItems [Child.heading 0 5 false] = [Child.heading 0 0 false] ∧
    (∃ e ∈ countUpItems [Child.heading 0 5 false],
        e = Child.heading 0 0 false ∧ e ≠ Child.heading 0 0 true) := by decide

/-- C2 amended: after `#countUpItems`, every heading's final count equals the
sum of the counts of the list blocks between it and the next heading of
equal-or-lesser depth; its `hidden` attribute is rewritten to "hidden iff the
final count is zero" when at least one list block occurs in that span, but a
heading followed by no list block before being closed keeps its prior
visibility attribute unchanged. -/
theorem c2_amended (children : List Child) (i d k : Nat) (h : Bool)
    (hi : children[i]? = some (.heading d k h)) :
    (countUpItems children)[i]? =
      some (.heading d (blockCountsUntil d (children.drop (i + 1)))
        (if hasBlockUntil d (children.drop (i + 1)) = true
         then (blockCountsUntil d (children.drop (i + 1)) == 0) else h)) := by
  have harr : (resetHeadingCounts children)[i]? = some (.heading d 0 h) := by
    rw [resetHeadingCounts, List.getElem?_map, hi]
    rfl
  have hspec := (countUpRun_spec (resetHeadingCounts children) 0
      (resetHeadingCounts children) []
      (fun k2 => by rw [Nat.zero_add]) (by intro jd hm; cases hm)
      (by simp) (by simp)).2.1 i d 0 h harr
  have hdrop : (resetHeadingCounts children).drop (i + 1)
      = resetHeadingCounts (children.drop (i + 1)) := by
    rw [resetHeadingCounts, resetHeadingCounts]
    exact (List.map_drop _ children (i + 1)).symm
  rw [Nat.zero_add, hdrop, blockCountsUntil_reset, hasBlockUntil_reset,
    Nat.zero_add] at hspec
  simp only [countUpItems]
  exact hspec

/-- Witness for the amended C2: depths `[0, 1]` with block counts `[2, 3]`;
the outer heading aggregates 2 + 3 = 5 and is visible. -/
theorem c2_witness :
    (countUpItems [Child.heading 0 0 true, Child.block [] 2,
        Child.heading 1 0 true, Child.block [] 3])[0]? =
      some (Child.heading 0 5 false) := by
  have hc := c2_amended [Child.heading 0 0 true, Child.block [] 2,
      Child.heading 1 0 true, Child.block [] 3] 0 0 0 true (by decide)
  rw [hc]
  decide

def splitFirstAt (c : Char) : Str → Option (Str × Str)
  | [] => none
  | ch :: t => if ch = c then some ([], t)
               else (splitFirstAt c t).map (fun p => (ch :: p.1, p.2))

/-- Model of how `URLSearchParams` splits one `key=value` segment: at the
first `=`; a segment with no `=` is a key with empty value. -/
def parsePair (p : Str) : Str × Str :=
  match splitFirstAt '=' p with
  | none => (p, [])
  | some kv => kv

/-- Model of JavaScript `String.prototype.split` with a one-character
separator (src 377) and of the `&`-splitting done by `URLSearchParams`:
`''.split(c) = ['']`. -/
def splitOnChar (c : Char) : Str → List Str
  | [] => [[]]
  | ch :: t =>
      if ch = c then [] :: splitOnChar c t
      else
        match splitOnChar c t with
        | [] => [[ch]]
        | cur :: rest => (ch :: cur) :: rest

/-- The leading `?` stripped by `URLSearchParams` from a search string. -/
def stripQm (s : Str) : Str :=
  match s with
  | [] => []
  | ch :: t => if ch = '?' then t else ch :: t

/-- Model of the browser constructor `new URLSearchParams(location.search)`
(src 357): strip a leading `?`, split on `&`, drop empty segments, split each
segment at its first `=`.  The form-urlencoded percent- and plus-decoding the
browser applies to both pair names and pair values is not modelled; the
round-trip theorem's hypotheses exclude `%` and `+` from query variables and
values alike, making that decoding the identity on every string reaching this
function. -/
def parseQuery (s : Str) : List (Str × Str) :=
  (splitOnChar '&' (stripQm s)).filterMap
    (fun p => if p = [] then none else some (parsePair p))

/-- Model of `usp.get(qvar)` (src 363), returning the first value bound to
the variable; `usp.has(qvar)` (src 360) is `Option.isSome` of this. -/
def uspGet : List (Str × Str) → Str → Option Str
  | [], _ => none
  | p :: rest, q => if p.1 == q then some p.2 else uspGet rest q

/-- The code points stripped by JavaScript `String.prototype.trim`:
WhiteSpace (TAB, VT, FF, SP, NBSP, ZWNBSP and the Unicode
space-separator category) and LineTerminator (LF, CR, LS, PS). -/
def jsSpaceCodes : List Nat :=
  [0x09, 0x0a, 0x0b, 0x0c, 0x0d, 0x20, 0xa0, 0x1680,
   0x2000, 0x2001, 0x2002, 0x2003, 0x2004, 0x2005, 0x2006, 0x2007,
   0x2008, 0x2009, 0x200a, 0x2028, 0x2029, 0x202f, 0x205f, 0x3000, 0xfeff]

/-- Model of JavaScript `String.prototype.trim` (src 377). -/
def isJsSpace (c : Char) : Bool := jsSpaceCodes.contains c.toNat

def jsTrim (s : Str) : Str :=
  ((s.dropWhile isJsSpace).reverse.dropWhile isJsSpace).reverse

/-- The leading-marker decoding of `#getStateFromUrlParams` (src 363-368):
the raw value with one leading `.` stripped. -/
def stripDotVal (v0 : Str) : Str :=
  match v0 with
  | [] => []
  | ch :: t => if ch = '.' then t else ch :: t

/-- The combination mode decoded alongside `stripDotVal` (src 364-368):
`and` when the leading marker was present, `or` otherwise. -/
def stripDotMode (v0 : Str) : Str :=
  match v0 with
  | [] => ("or").data
  | ch :: _ => if ch = '.' then ("and").data else ("or").data

/-- `#getStateFromUrlParams` (src 356-384) restricted to one key: when the
key's query variable is present in the URL, a leading `.` is stripped from
the value and selects `and` mode; a `select` key receives the stripped value
verbatim (the mode is dropped); a `checkbox` key checks its enabled-toggle,
sets its relation-toggle to the decoded mode (each only when the control
exists), and checks exactly the value-toggles whose value occurs in the
comma-split, trimmed value set. -/
def applyUrlParam (usp : List (Str × Str)) (u : KeyUi) : KeyUi :=
  match uspGet usp u.qvar with
  | none => u
  | some v0 =>
      let v := stripDotVal v0
      let oa := stripDotMode v0
      match u.ui with
      | .select _ => { u with ui := .select v }
      | .checkbox ena rel cbs =>
          let vs := (splitOnChar ',' v).map jsTrim
          let ui2 : UIControls :=
            .checkbox (ena.map (fun _ => true))
              (rel.map (fun _ => (oa == ("and").data)))
              (cbs.map (fun cb => (cb.1, vs.contains cb.1)))
          { u with ui := ui2 }

/-- `#getStateFromUrlParams` (src 356-384) over all keys. -/
def getStateFromUrlParams (usp : List (Str × Str)) (uis : List KeyUi) : List KeyUi :=
  uis.map (applyUrlParam usp)

/-- Modelled from the spec: the default control state of a freshly loaded
page, against which URL-state seeding runs (the reload side of the §8
round-trip property, which the repository's source does not itself set up):
the same controls, with nothing selected and every toggle unchecked. -/
def resetUi (u : KeyUi) : KeyUi :=
  { u with ui :=
      match u.ui with
      | .select _ => .select []
      | .checkbox ena rel cbs =>
          .checkbox (ena.map (fun _ => false)) (rel.map (fun _ => false))
            (cbs.map (fun cb => (cb.1, false))) }

/-- The `location.search` component after `#setUrlParams` has rewritten the
URL (src 400-406): `'?' + ps.join('&')` when pairs exist, otherwise the empty
search string (the URL was reset to origin + pathname).  The browser's URL
parser would end the search at a `#` (fragment start) and strips raw TAB, LF
and CR from the URL; the round-trip theorem's hypotheses exclude those
characters from query variables and values, so the string written here is the
search component verbatim. -/
def searchAfterEncode (ktv : List KeyVals) : Str :=
  let ps := urlPairs ktv
  if 0 < ps.length then '?' :: joinSep (("&").data) ps else []

/-- Encode-then-decode round trip at the control-state level: read the
criteria, rewrite the URL, reload the page with default controls, seed them
from the URL, and read the criteria again. -/
def roundTrip (uis : List KeyUi) : List KeyVals :=
  getKeyToVals
    (getStateFromUrlParams (parseQuery (searchAfterEncode (getKeyToVals uis)))
      (uis.map resetUi))

/-- A multi-choice key whose single checked value-toggle carries the value
`" a"` — no comma, no `.`, but a leading space. -/
def uisC5 : List KeyUi :=
  [⟨("k").data, ("%value%").data, ("k").data,
    .checkbox (some true) (some false) [((" a").data, true)]⟩]

/-- C5 counterexample: every value of the criterion set contains neither a
comma nor the reserved marker `.`, yet decode(encode(·)) does not reproduce
the set — the decoder trims the value `" a"` to `"a"`, which matches no
value-toggle, so the value list comes back empty. -/
theorem c5_counterexample :
    (∀ kv ∈ getKeyToVals uisC5, kv.vs ≠ [] ∧ ∀ v ∈ kv.vs, ',' ∉ v ∧ '.' ∉ v) ∧
    roundTrip uisC5 ≠ getKeyToVals uisC5 := by decide

theorem keyToValsOf_select_or (u : KeyUi) (kv : KeyVals) (s : Str)
    (hui : u.ui = .select s) (hkv : keyToValsOf u = some kv) :
    kv.oa = ("or").data := by
  obtain ⟨key, cls, qvar, ui⟩ := u
  simp only at hui
  subst hui
  simp only [keyToValsOf] at hkv
  by_cases h : s = []
  · rw [if_neg (fun hne : s ≠ [] => hne h)] at hkv
    cases hkv
  · rw [if_pos h] at hkv
    cases hkv
    rfl

/-- C9: a single-choice key present in the snapshot always carries OR mode;
and when a URL value with a leading `.` AND marker is decoded for a
single-choice key, the marker is stripped before the value is written into
the selector while the implied AND mode is discarded — any snapshot read from
the seeded selector is again OR. -/
theorem c9_single_choice :
    (∀ (u : KeyUi) (kv : KeyVals) (s : Str),
       u.ui = .select s → keyToValsOf u = some kv → kv.oa = ("or").data) ∧
    (∀ (usp : List (Str × Str)) (u : KeyUi) (s v0 : Str),
       u.ui = .select s → uspGet usp u.qvar = some v0 →
       (applyUrlParam usp u).ui = .select (stripDotVal v0)) ∧
    (∀ (usp : List (Str × Str)) (u : KeyUi) (s : Str) (kv : KeyVals),
       u.ui = .select s → keyToValsOf (applyUrlParam usp u) = some kv →
       kv.oa = ("or").data) := by
  refine ⟨fun u kv s hui hkv => keyToValsOf_select_or u kv s hui hkv, ?_, ?_⟩
  · intro usp u s v0 hui hget
    simp only [applyUrlParam, hget, hui]
  · intro usp u s kv hui hkv
    cases hget : uspGet usp u.qvar with
    | none =>
        simp only [applyUrlParam, hget] at hkv
        exact keyToValsOf_select_or u kv s hui hkv
    | some v0 =>
        have hui2 : (applyUrlParam usp u).ui = .select (stripDotVal v0) := by
          simp only [applyUrlParam, hget, hui]
        exact keyToValsOf_select_or (applyUrlParam usp u) kv _ hui2 hkv

/-- Witness for C9: the encoded value `.y` seeds the selector with `y`. -/
theorem c9_witness :
    (applyUrlParam [(("k").data, (".y").data)]
      (⟨("k").data, [], ("k").data, .select ("x").data⟩ : KeyUi)).ui
      = .select (("y").data) := by
  have h := c9_single_choice.2.1 [(("k").data, (".y").data)]
    ⟨("k").data, [], ("k").data, .select ("x").data⟩ (("x").data) ((".y").data)
    rfl (by decide)
  rw [h]
  decide

/-- The mutable state of one filter instance that the recompute cycle
touches: the `#stopUpdate` guard (src 85), the bound controls, the list
container's children, the page URL and location.  `recomputeCount` is an
observation counter of completed recompute cycles, used to state the
temporal claim. -/
structure FState where
  stopUpdate : Bool
  uis : List KeyUi
  children : List Child
  url : Str
  loc : Location
  recomputeCount : Nat
  deriving DecidableEq

/-- `#update` (src 225-237): under the guard it returns at once with no state
change; otherwise it reads the snapshot, filters the lists, aggregates the
counts and rewrites the URL (one recompute cycle).  `#fixListHeight` and
`#freeListHeight` only set and then remove a style attribute, a net no-op on
the modelled state. -/
def update (s : FState) : FState :=
  if s.stopUpdate then s
  else
    let keyToVals := getKeyToVals s.uis
    { s with
      children := countUpItems (filterLists keyToVals s.children),
      url := setUrlParams keyToVals s.loc,
      recomputeCount := s.recomputeCount + 1 }

/-- The URL-seeding phase of `#initFilter` (src 177-183): set the guard,
apply every URL parameter to the controls (`#getStateFromUrlParams` performs
the control mutations and never calls `#update`), release the guard, then run
`#update` once. -/
def initByParams (usp : List (Str × Str)) (s : FState) : FState :=
  let s1 : FState := { s with stopUpdate := true }
  let s2 : FState := { s1 with uis := getStateFromUrlParams usp s1.uis }
  let s3 : FState := { s2 with stopUpdate := false }
  update s3

/-- C8: a recompute entered while the guard is set performs no state change
at all, and the URL-seeding phase applies all its control mutations with the
guard set and then performs exactly one recompute cycle after releasing it —
regardless of how many controls the seeding touches. -/
theorem c8_guard (s : FState) (usp : List (Str × Str)) :
    (s.stopUpdate = true → update s = s) ∧
    ((initByParams usp s).recomputeCount = s.recomputeCount + 1 ∧
     (initByParams usp s).uis = getStateFromUrlParams usp s.uis ∧
     (initByParams usp s).stopUpdate = false) := by
  constructor
  · intro h
    rw [update, if_pos h]
  · refine ⟨?_, ?_, ?_⟩ <;> simp [initByParams, update]

/-- Witness for C8 at a concrete initial state. -/
theorem c8_witness :
    update (⟨true, [], [], [], ⟨[], [], []⟩, 0⟩ : FState)
        = (⟨true, [], [], [], ⟨[], [], []⟩, 0⟩ : FState) ∧
    (initByParams [] (⟨true, [], [], [], ⟨[], [], []⟩, 0⟩ : FState)).recomputeCount = 1 :=
  ⟨(c8_guard ⟨true, [], [], [], ⟨[], [], []⟩, 0⟩ []).1 rfl,
   (c8_guard ⟨true, [], [], [], ⟨[], [], []⟩, 0⟩ []).2.1⟩

theorem splitOnChar_no_sep (c : Char) (p : Str) (h : c ∉ p) :
    splitOnChar c p = [p] := by
  induction p with
  | nil => rfl
  | cons ch t ih =>
      have hne : ¬ (ch = c) := fun he => h (by simp [he])
      have ht : c ∉ t := fun hm => h (List.mem_cons_of_mem ch hm)
      rw [splitOnChar, if_neg hne, ih ht]

theorem splitOnChar_append (c : Char) (p s : Str) (h : c ∉ p) :
    splitOnChar c (p ++ c :: s) = p :: splitOnChar c s := by
  induction p with
  | nil =>
      rw [List.nil_append, splitOnChar, if_pos rfl]
  | cons ch t ih =>
      have hne : ¬ (ch = c) := fun he => h (by simp [he])
      have ht : c ∉ t := fun hm => h (List.mem_cons_of_mem ch hm)
      rw [List.cons_append, splitOnChar, if_neg hne, ih ht]

theorem joinSep_cons_cons (sep : Str) (p q : Str) (t : List Str) :
    joinSep sep (p :: q :: t) = p ++ sep ++ joinSep sep (q :: t) := rfl

theorem splitOnChar_joinSep (c : Char) (parts : List Str) (hne : parts ≠ [])
    (h : ∀ p ∈ parts, c ∉ p) :
    splitOnChar c (joinSep [c] parts) = parts := by
  induction parts with
  | nil => exact absurd rfl hne
  | cons p rest ih =>
      cases rest with
      | nil =>
          rw [joinSep]
          exact splitOnChar_no_sep c p (h p (List.mem_cons_self p []))
      | cons q t =>
          have hjoin : joinSep [c] (p :: q :: t) = p ++ c :: joinSep [c] (q :: t) := by
            rw [joinSep_cons_cons]
            simp
          rw [hjoin, splitOnChar_append c p _ (h p (List.mem_cons_self p _)),
            ih (by simp) (fun r hr => h r (List.mem_cons_of_mem p hr))]

theorem splitFirstAt_append (c : Char) (q v : Str) (h : c ∉ q) :
    splitFirstAt c (q ++ c :: v) = some (q, v) := by
  induction q with
  | nil =>
      rw [List.nil_append, splitFirstAt, if_pos rfl]
  | cons ch t ih =>
      have hne : ¬ (ch = c) := fun he => h (by simp [he])
      have ht : c ∉ t := fun hm => h (List.mem_cons_of_mem ch hm)
      rw [List.cons_append, splitFirstAt, if_neg hne, ih ht]
      rfl

theorem not_mem_joinSep (c : Char) (sep : Str) (parts : List Str)
    (hsep : c ∉ sep) (h : ∀ p ∈ parts, c ∉ p) : c ∉ joinSep sep parts := by
  induction parts with
  | nil =>
      rw [joinSep]
      exact List.not_mem_nil c
  | cons p rest ih =>
      cases rest with
      | nil =>
          rw [joinSep]
          exact h p (List.mem_cons_self p [])
      | cons q t =>
          rw [joinSep_cons_cons]
          intro hmem
          rcases List.mem_append.mp hmem with hmem2 | hmem3
          · rcases List.mem_append.mp hmem2 with hp | hs
            · exact h p (List.mem_cons_self p _) hp
            · exact hsep hs
          · exact ih (fun r hr => h r (List.mem_cons_of_mem p hr)) hmem3

theorem stripDot_join (vs : List Str) (h : ∀ v ∈ vs, '.' ∉ v) :
    stripDotVal (joinSep ((",").data) vs) = joinSep ((",").data) vs ∧
    stripDotMode (joinSep ((",").data) vs) = ("or").data := by
  have hnd : '.' ∉ joinSep ((",").data) vs :=
    not_mem_joinSep '.' ((",").data) vs (by decide) h
  cases hJ : joinSep ((",").data) vs with
  | nil => exact ⟨rfl, rfl⟩
  | cons ch t =>
      rw [hJ] at hnd
      have hne : ¬ (ch = '.') := fun he => hnd (by simp [he])
      rw [stripDotVal, stripDotMode, if_neg hne, if_neg hne]
      exact ⟨rfl, rfl⟩

theorem getCheckedVals_subset (cbs : List (Str × Bool)) :
    ∀ v ∈ getCheckedVals cbs, v ∈ cbs.map Prod.fst := by
  intro v hv
  rw [getCheckedVals] at hv
  rw [List.mem_map] at hv
  obtain ⟨cb, hcb, hfst⟩ := hv
  exact hfst ▸ List.mem_map_of_mem Prod.fst (List.mem_of_mem_filter hcb)

theorem getCheckedVals_cons_true (v0 : Str) (rest : List (Str × Bool)) :
    getCheckedVals ((v0, true) :: rest) = v0 :: getCheckedVals rest := by
  simp [getCheckedVals, List.filter_cons]

theorem getCheckedVals_cons_false (v0 : Str) (rest : List (Str × Bool)) :
    getCheckedVals ((v0, false) :: rest) = getCheckedVals rest := by
  simp [getCheckedVals, List.filter_cons]

theorem contains_getCheckedVals (cbs : List (Str × Bool))
    (hnd : (cbs.map Prod.fst).Nodup) :
    ∀ cb ∈ cbs, (getCheckedVals cbs).contains cb.1 = cb.2 := by
  induction cbs with
  | nil => intro cb hcb; cases hcb
  | cons cb0 rest ih =>
      obtain ⟨v0, b0⟩ := cb0
      rw [List.map_cons, List.nodup_cons] at hnd
      intro cb hcb
      rcases List.mem_cons.mp hcb with h2 | hmem2
      · subst h2
        cases b0 with
        | true =>
            rw [getCheckedVals_cons_true]
            simp
        | false =>
            rw [getCheckedVals_cons_false]
            have hnm : v0 ∉ getCheckedVals rest :=
              fun hm => hnd.1 (getCheckedVals_subset rest v0 hm)
            simpa using hnm
      · have hfst : cb.1 ∈ List.map Prod.fst rest := List.mem_map_of_mem Prod.fst hmem2
        have hnev : (cb.1 == v0) = false := by
          have hne2 : cb.1 ≠ v0 := fun he => hnd.1 (he ▸ hfst)
          simpa using hne2
        have hrec := ih hnd.2 cb hmem2
        cases b0 with
        | true =>
            rw [getCheckedVals_cons_true, List.contains_cons, hnev, Bool.false_or]
            exact hrec
        | false =>
            rw [getCheckedVals_cons_false]
            exact hrec

theorem getCheckedVals_restore (cbs : List (Str × Bool))
    (hnd : (cbs.map Prod.fst).Nodup) :
    getCheckedVals (cbs.map (fun cb => (cb.1, (getCheckedVals cbs).contains cb.1)))
      = getCheckedVals cbs := by
  have hmap : cbs.map (fun cb => (cb.1, (getCheckedVals cbs).contains cb.1))
      = cbs.map (fun cb => (cb.1, cb.2)) :=
    List.map_congr_left (fun cb hcb => by rw [contains_getCheckedVals cbs hnd cb hcb])
  rw [hmap]
  have hid : cbs.map (fun cb => (cb.1, cb.2)) = cbs := by
    simp
  rw [hid]

/-- The value strings carried by one key's controls: the selector value for
a `select` key, the value-toggle values for a `checkbox` key. -/
@[reducible] def uiValues : UIControls → List Str
  | .select v => [v]
  | .checkbox _ _ cbs => cbs.map Prod.fst

theorem keyToValsOf_select_eq (key cls qvar v : Str) (hv : v ≠ []) :
    keyToValsOf ⟨key, cls, qvar, .select v⟩ =
      some ⟨key, ("or").data, [v], cls, qvar⟩ := by
  simp only [keyToValsOf]
  rw [if_pos hv]

theorem keyToValsOf_select_nil (key cls qvar : Str) :
    keyToValsOf ⟨key, cls, qvar, .select []⟩ = none := by
  simp [keyToValsOf]

theorem keyToValsOf_checkbox_eq (key cls qvar : Str) (r : Bool)
    (cbs : List (Str × Bool)) :
    keyToValsOf ⟨key, cls, qvar, .checkbox (some true) (some r) cbs⟩ =
      some ⟨key, (if r then ("and").data else ("or").data), getCheckedVals cbs,
            cls, qvar⟩ := rfl

theorem keyToValsOf_checkbox_none (key cls qvar : Str) (ena rel : Option Bool)
    (cbs : List (Str × Bool)) (h : ¬ (ena = some true ∧ rel.isSome = true)) :
    keyToValsOf ⟨key, cls, qvar, .checkbox ena rel cbs⟩ = none := by
  cases ena with
  | none => rfl
  | some b =>
      cases b with
      | false => cases rel <;> rfl
      | true =>
          cases rel with
          | none => rfl
          | some r => exact absurd ⟨rfl, rfl⟩ h

theorem keyToValsOf_qvar (u : KeyUi) (kv : KeyVals)
    (h : keyToValsOf u = some kv) : kv.qvar = u.qvar := by
  obtain ⟨key, cls, qvar, ui⟩ := u
  cases ui with
  | select v =>
      cases hv : decide (v = []) with
      | true =>
          rw [of_decide_eq_true hv] at h
          rw [keyToValsOf_select_nil] at h
          cases h
      | false =>
          rw [keyToValsOf_select_eq key cls qvar v (of_decide_eq_false hv)] at h
          cases h
          rfl
  | checkbox ena rel cbs =>
      by_cases he : ena = some true ∧ rel.isSome = true
      · obtain ⟨he1, he2⟩ := he
        subst he1
        cases rel with
        | none => cases he2
        | some r =>
            rw [keyToValsOf_checkbox_eq] at h
            cases h
            rfl
      · rw [keyToValsOf_checkbox_none key cls qvar ena rel cbs he] at h
        cases h

theorem keyToValsOf_values (u : KeyUi) (kv : KeyVals)
    (h : keyToValsOf u = some kv) : ∀ v ∈ kv.vs, v ∈ uiValues u.ui := by
  obtain ⟨key, cls, qvar, ui⟩ := u
  cases ui with
  | select v0 =>
      cases hv : decide (v0 = []) with
      | true =>
          rw [of_decide_eq_true hv] at h
          rw [keyToValsOf_select_nil] at h
          cases h
      | false =>
          rw [keyToValsOf_select_eq key cls qvar v0 (of_decide_eq_false hv)] at h
          cases h
          intro v hv2
          simpa [uiValues] using hv2
  | checkbox ena rel cbs =>
      by_cases he : ena = some true ∧ rel.isSome = true
      · obtain ⟨he1, he2⟩ := he
        subst he1
        cases rel with
        | none => cases he2
        | some r =>
            rw [keyToValsOf_checkbox_eq] at h
            cases h
            intro v hv2
            exact getCheckedVals_subset cbs v hv2
      · rw [keyToValsOf_checkbox_none key cls qvar ena rel cbs he] at h
        cases h

theorem getKeyToVals_qvars_sublist (uis : List KeyUi) :
    ((getKeyToVals uis).map KeyVals.qvar).Sublist (uis.map KeyUi.qvar) := by
  induction uis with
  | nil => exact List.Sublist.refl _
  | cons u rest ih =>
      rw [getKeyToVals, List.filterMap_cons]
      cases hk : keyToValsOf u with
      | none =>
          rw [List.map_cons]
          exact ih.trans (List.sublist_cons_self u.qvar _)
      | some kv =>
          rw [List.map_cons, List.map_cons, keyToValsOf_qvar u kv hk]
          exact ih.cons₂ u.qvar

theorem notMem_encVal_amp (kv : KeyVals) (hv : ∀ v ∈ kv.vs, '&' ∉ v) :
    '&' ∉ encVal kv := by
  rw [encVal]
  intro hmem
  rcases List.mem_append.mp hmem with h1 | h2
  · rw [rsOf] at h1
    by_cases h : kv.oa = ("and").data
    · rw [if_pos h] at h1
      simp at h1
    · rw [if_neg h] at h1
      cases h1
  · exact not_mem_joinSep '&' ((",").data) kv.vs (by decide) hv h2

theorem pairOf_ne_nil (kv : KeyVals) : pairOf kv ≠ [] := by
  rw [pairOf]
  simp

theorem pairOf_eq (kv : KeyVals) :
    pairOf kv = kv.qvar ++ '=' :: encVal kv := by
  rw [pairOf]
  simp

theorem parsePair_pairOf (kv : KeyVals) (hq : '=' ∉ kv.qvar) :
    parsePair (pairOf kv) = (kv.qvar, encVal kv) := by
  rw [pairOf_eq, parsePair, splitFirstAt_append '=' kv.qvar (encVal kv) hq]

theorem filterMap_parsePair_map (l : List KeyVals) (hl : ∀ kv ∈ l, '=' ∉ kv.qvar) :
    (l.map pairOf).filterMap (fun p => if p = [] then none else some (parsePair p))
      = l.map (fun kv => (kv.qvar, encVal kv)) := by
  induction l with
  | nil => rfl
  | cons kv t ih =>
      have h1 : (if pairOf kv = [] then (none : Option (Str × Str))
          else some (parsePair (pairOf kv))) = some (kv.qvar, encVal kv) := by
        rw [if_neg (pairOf_ne_nil kv),
          parsePair_pairOf kv (hl kv (List.mem_cons_self kv t))]
      rw [List.map_cons, List.map_cons, List.filterMap_cons]
      simp only [h1]
      rw [ih (fun kv2 h2 => hl kv2 (List.mem_cons_of_mem kv h2))]

theorem parseQuery_encode (cs : List KeyVals)
    (hvs : ∀ kv ∈ cs, kv.vs ≠ [])
    (hq : ∀ kv ∈ cs, '&' ∉ kv.qvar ∧ '=' ∉ kv.qvar)
    (hv : ∀ kv ∈ cs, ∀ v ∈ kv.vs, '&' ∉ v) :
    parseQuery (searchAfterEncode cs) = cs.map (fun kv => (kv.qvar, encVal kv)) := by
  have hpairs : urlPairs cs = cs.map pairOf := by
    rw [urlPairs_eq_filter]
    rw [List.filter_eq_self.mpr (fun kv hkv => by simpa using hvs kv hkv)]
  cases cs with
  | nil => rfl
  | cons kv0 rest =>
      have hamp : ∀ p ∈ (kv0 :: rest).map pairOf, '&' ∉ p := by
        intro p hp
        rw [List.mem_map] at hp
        obtain ⟨kv, hkv, hpe⟩ := hp
        intro hmem
        rw [← hpe, pairOf_eq] at hmem
        rcases List.mem_append.mp hmem with h1 | h2
        · exact (hq kv hkv).1 h1
        · rcases List.mem_cons.mp h2 with he | h3
          · exact absurd he (by decide)
          · exact notMem_encVal_amp kv (hv kv hkv) h3
      have hsearch : searchAfterEncode (kv0 :: rest)
          = '?' :: joinSep (("&").data) ((kv0 :: rest).map pairOf) := by
        simp only [searchAfterEncode, hpairs]
        rw [if_pos (by simp)]
      rw [hsearch, parseQuery]
      rw [show stripQm ('?' :: joinSep (("&").data) ((kv0 :: rest).map pairOf))
          = joinSep (("&").data) ((kv0 :: rest).map pairOf) from by
        rw [stripQm, if_pos rfl]]
      rw [show (("&").data : Str) = ['&'] from rfl]
      rw [splitOnChar_joinSep '&' _ (by simp) hamp]
      exact filterMap_parsePair_map _ (fun kv hkv => (hq kv hkv).2)

theorem uspGet_map_mem (cs : List KeyVals) (kv : KeyVals)
    (hnd : (cs.map KeyVals.qvar).Nodup) (hmem : kv ∈ cs) :
    uspGet (cs.map (fun kv2 => (kv2.qvar, encVal kv2))) kv.qvar
      = some (encVal kv) := by
  induction cs with
  | nil => cases hmem
  | cons kv0 rest ih =>
      rw [List.map_cons, List.nodup_cons] at hnd
      rw [List.map_cons, uspGet]
      rcases List.mem_cons.mp hmem with h2 | hmem2
      · subst h2
        rw [if_pos (by simp)]
      · have hne : (kv0.qvar == kv.qvar) = false := by
          have hne2 : kv0.qvar ≠ kv.qvar := by
            intro he
            apply hnd.1
            rw [he]
            exact List.mem_map_of_mem KeyVals.qvar hmem2
          simpa using hne2
        rw [if_neg (by simp [hne])]
        exact ih hnd.2 hmem2

theorem uspGet_map_not_mem (cs : List KeyVals) (q : Str)
    (h : ∀ kv ∈ cs, kv.qvar ≠ q) :
    uspGet (cs.map (fun kv2 => (kv2.qvar, encVal kv2))) q = none := by
  induction cs with
  | nil => rfl
  | cons kv0 rest ih =>
      rw [List.map_cons, uspGet]
      have hne : (kv0.qvar == q) = false := by
        simpa using h kv0 (List.mem_cons_self kv0 rest)
      rw [if_neg (by simp [hne])]
      exact ih (fun kv2 h2 => h kv2 (List.mem_cons_of_mem kv0 h2))

/-- The characters a clean value must avoid: the list separator, the
reserved marker, the pair separator, the characters the browser's
percent/plus decoding would alter, the fragment marker, and the raw control
characters the URL parser strips. -/
@[reducible] def badValueChars : List Char :=
  [',', '.', '&', '%', '+', '#', '\t', '\n', '\r']

/-- A value clean enough for the unescaped URL pipeline: none of the
characters of `badValueChars`, and no surrounding whitespace. -/
@[reducible] def cleanValue (v : Str) : Prop :=
  (∀ c ∈ badValueChars, c ∉ v) ∧ jsTrim v = v

/-- Duplicate-freedom of a key's value-toggle values. -/
@[reducible] def cbsNodup : UIControls → Prop
  | .select _ => True
  | .checkbox _ _ cbs => (cbs.map Prod.fst).Nodup

instance (ui : UIControls) : Decidable (cbsNodup ui) :=
  match ui with
  | .select _ => isTrue trivial
  | .checkbox _ _ cbs => inferInstanceAs (Decidable ((cbs.map Prod.fst).Nodup))

/-- The characters a clean query variable must avoid: the pair separators,
the characters the browser's percent/plus decoding of pair names would
alter, the fragment marker, and the raw control characters the URL parser
strips. -/
@[reducible] def badQvarChars : List Char :=
  ['&', '=', '%', '+', '#', '\t', '\n', '\r']

@[reducible] def cleanUi (u : KeyUi) : Prop :=
  (∀ c ∈ badQvarChars, c ∉ u.qvar) ∧
  (∀ v ∈ uiValues u.ui, cleanValue v) ∧ cbsNodup u.ui

/-- The hypotheses of the amended round trip: pairwise-distinct clean query
variables, clean values, duplicate-free value-toggle groups, and a non-empty
value list for every present key. -/
@[reducible] def cleanUis (uis : List KeyUi) : Prop :=
  (uis.map KeyUi.qvar).Nodup ∧ (∀ u ∈ uis, cleanUi u) ∧
  (∀ kv ∈ getKeyToVals uis, kv.vs ≠ [])

theorem applyUrlParam_none (usp : List (Str × Str)) (u : KeyUi)
    (hget : uspGet usp u.qvar = none) : applyUrlParam usp u = u := by
  simp [applyUrlParam, hget]

theorem applyUrlParam_select (usp : List (Str × Str)) (key cls qvar s v0 : Str)
    (hget : uspGet usp qvar = some v0) :
    applyUrlParam usp ⟨key, cls, qvar, .select s⟩
      = ⟨key, cls, qvar, .select (stripDotVal v0)⟩ := by
  simp [applyUrlParam, hget]

theorem applyUrlParam_checkbox_ss (usp : List (Str × Str)) (key cls qvar : Str)
    (b1 b2 : Bool) (cbs : List (Str × Bool)) (v0 : Str)
    (hget : uspGet usp qvar = some v0) :
    applyUrlParam usp ⟨key, cls, qvar, .checkbox (some b1) (some b2) cbs⟩
      = ⟨key, cls, qvar, .checkbox (some true)
          (some (stripDotMode v0 == ("and").data))
          (cbs.map (fun cb =>
            (cb.1, ((splitOnChar ',' (stripDotVal v0)).map jsTrim).contains cb.1)))⟩ := by
  simp [applyUrlParam, hget]

theorem resetUi_select (key cls qvar s : Str) :
    resetUi ⟨key, cls, qvar, .select s⟩ = ⟨key, cls, qvar, .select []⟩ := rfl

theorem resetUi_checkbox_ss (key cls qvar : Str) (b1 b2 : Bool)
    (cbs : List (Str × Bool)) :
    resetUi ⟨key, cls, qvar, .checkbox (some b1) (some b2) cbs⟩
      = ⟨key, cls, qvar, .checkbox (some false) (some false)
          (cbs.map (fun cb => (cb.1, false)))⟩ := rfl

theorem map_reset_contains (cbs : List (Str × Bool)) (V : List Str) :
    (cbs.map (fun cb => (cb.1, false))).map (fun cb => (cb.1, V.contains cb.1))
      = cbs.map (fun cb => (cb.1, V.contains cb.1)) := by
  rw [List.map_map]
  exact List.map_congr_left (fun cb _ => rfl)

theorem decode_restores (uis : List KeyUi) (hc : cleanUis uis) :
    ∀ u ∈ uis,
      keyToValsOf (applyUrlParam
        ((getKeyToVals uis).map (fun kv => (kv.qvar, encVal kv))) (resetUi u))
      = keyToValsOf u := by
  obtain ⟨hnd, hclean, hvs⟩ := hc
  have hcsnd : ((getKeyToVals uis).map KeyVals.qvar).Nodup :=
    hnd.sublist (getKeyToVals_qvars_sublist uis)
  intro u hu
  obtain ⟨key, cls, qvar, ui⟩ := u
  cases hk : keyToValsOf ⟨key, cls, qvar, ui⟩ with
  | none =>
      have hnone : uspGet ((getKeyToVals uis).map (fun kv => (kv.qvar, encVal kv)))
          qvar = none := by
        apply uspGet_map_not_mem
        intro kv hkv he
        obtain ⟨u2, hu2, hk2⟩ := List.mem_filterMap.mp hkv
        have hq2 : u2.qvar = (⟨key, cls, qvar, ui⟩ : KeyUi).qvar := by
          rw [← keyToValsOf_qvar u2 kv hk2, he]
        have heq : u2 = ⟨key, cls, qvar, ui⟩ :=
          List.inj_on_of_nodup_map hnd hu2 hu hq2
        rw [heq, hk] at hk2
        cases hk2
      rw [applyUrlParam_none _ _ hnone]
      cases ui with
      | select v =>
          rw [resetUi_select]
          exact keyToValsOf_select_nil key cls qvar
      | checkbox ena rel cbs =>
          simp only [resetUi]
          refine keyToValsOf_checkbox_none key cls qvar _ _ _ ?_
          intro hcontra
          cases ena with
          | none => exact Option.noConfusion hcontra.1
          | some b => exact Bool.noConfusion (Option.some.inj hcontra.1)
  | some kv =>
      have hkvmem : kv ∈ getKeyToVals uis :=
        List.mem_filterMap.mpr ⟨⟨key, cls, qvar, ui⟩, hu, hk⟩
      have hkvq : kv.qvar = qvar := keyToValsOf_qvar ⟨key, cls, qvar, ui⟩ kv hk
      have hget : uspGet ((getKeyToVals uis).map (fun kv2 => (kv2.qvar, encVal kv2)))
          qvar = some (encVal kv) := by
        rw [← hkvq]
        exact uspGet_map_mem (getKeyToVals uis) kv hcsnd hkvmem
      have hvclean : ∀ v ∈ kv.vs, cleanValue v := by
        intro v hv2
        exact (hclean ⟨key, cls, qvar, ui⟩ hu).2.1 v
          (keyToValsOf_values ⟨key, cls, qvar, ui⟩ kv hk v hv2)
      have hvsne : kv.vs ≠ [] := hvs kv hkvmem
      cases ui with
      | select v =>
          by_cases hv0 : v = []
          · rw [hv0, keyToValsOf_select_nil] at hk
            cases hk
          · rw [keyToValsOf_select_eq key cls qvar v hv0] at hk
            injection hk with hkk
            subst hkk
            have hev : encVal ⟨key, ("or").data, [v], cls, qvar⟩ = v := by
              have hoa : ¬ ((⟨key, ("or").data, [v], cls, qvar⟩ : KeyVals).oa
                  = ("and").data) := by
                show ¬ ((("or").data : Str) = ("and").data)
                decide
              rw [encVal, rsOf, if_neg hoa, joinSep]
              rfl
            have hsd : stripDotVal v = v := by
              cases v with
              | nil => exact absurd rfl hv0
              | cons c t =>
                  have hdot : '.' ∉ c :: t :=
                    (hvclean (c :: t) (by simp)).1 '.' (by decide)
                  rw [stripDotVal, if_neg (fun he => hdot (by simp [he]))]
            rw [resetUi_select, applyUrlParam_select _ key cls qvar [] _ hget,
              hev, hsd, keyToValsOf_select_eq key cls qvar v hv0]
      | checkbox ena rel cbs =>
          by_cases he : ena = some true ∧ rel.isSome = true
          · obtain ⟨he1, he2⟩ := he
            subst he1
            cases rel with
            | none => cases he2
            | some r =>
                rw [keyToValsOf_checkbox_eq] at hk
                injection hk with hkk
                subst hkk
                have hnodup : (cbs.map Prod.fst).Nodup :=
                  (hclean ⟨key, cls, qvar, .checkbox (some true) (some r) cbs⟩ hu).2.2
                have hdotfree : ∀ v ∈ getCheckedVals cbs, '.' ∉ v :=
                  fun v hv2 => (hvclean v hv2).1 '.' (by decide)
                have hcommafree : ∀ v ∈ getCheckedVals cbs, ',' ∉ v :=
                  fun v hv2 => (hvclean v hv2).1 ',' (by decide)
                have htrim : ∀ v ∈ getCheckedVals cbs, jsTrim v = v :=
                  fun v hv2 => (hvclean v hv2).2
                have hsplit : (splitOnChar ','
                    (joinSep ((",").data) (getCheckedVals cbs))).map jsTrim
                    = getCheckedVals cbs := by
                  rw [show ((",").data : Str) = [','] from rfl,
                    splitOnChar_joinSep ',' _ hvsne hcommafree]
                  rw [List.map_congr_left (fun v hv2 => htrim v hv2)]
                  exact List.map_id _
                rw [resetUi_checkbox_ss,
                  applyUrlParam_checkbox_ss _ key cls qvar false false _ _ hget]
                cases r with
                | true =>
                    have hev : encVal ⟨key,
                        (if true then ("and").data else ("or").data),
                        getCheckedVals cbs, cls, qvar⟩
                        = '.' :: joinSep ((",").data) (getCheckedVals cbs) := by
                      rw [encVal, rsOf]
                      rfl
                    rw [hev]
                    rw [show stripDotVal
                        ('.' :: joinSep ((",").data) (getCheckedVals cbs))
                        = joinSep ((",").data) (getCheckedVals cbs) from by
                      rw [stripDotVal, if_pos rfl]]
                    rw [show stripDotMode
                        ('.' :: joinSep ((",").data) (getCheckedVals cbs))
                        = ("and").data from by
                      rw [stripDotMode, if_pos rfl]]
                    rw [show ((("and").data : Str) == ("and").data) = true from by decide]
                    rw [hsplit, map_reset_contains, keyToValsOf_checkbox_eq,
                      getCheckedVals_restore cbs hnodup]
                | false =>
                    have hev : encVal ⟨key,
                        (if false then ("and").data else ("or").data),
                        getCheckedVals cbs, cls, qvar⟩
                        = joinSep ((",").data) (getCheckedVals cbs) := by
                      have hoa : ¬ ((⟨key,
                          (if false then ("and").data else ("or").data),
                          getCheckedVals cbs, cls, qvar⟩ : KeyVals).oa
                          = ("and").data) := by
                        show ¬ (((if false then ("and").data else ("or").data) : Str)
                          = ("and").data)
                        decide
                      rw [encVal, rsOf, if_neg hoa]
                      rfl
                    obtain ⟨hsdv, hsdm⟩ := stripDot_join (getCheckedVals cbs) hdotfree
                    rw [hev, hsdv, hsdm]
                    rw [show ((("or").data : Str) == ("and").data) = false from by decide]
                    rw [hsplit, map_reset_contains, keyToValsOf_checkbox_eq,
                      getCheckedVals_restore cbs hnodup]
          · rw [keyToValsOf_checkbox_none key cls qvar ena rel cbs he] at hk
            cases hk

/-- C5 amended: the decode of the encoded query string reproduces the
criterion set exactly — same present keys in order, same combination modes,
same ordered values — for every control state whose present keys all carry at
least one value, whose query variables are pairwise distinct and free of the
pair separators `&` and `=`, the escape characters `%` and `+`, the fragment
marker `#` and raw TAB/LF/CR, whose value-toggle groups are duplicate-free,
and whose values contain no comma, none of `.`, `&`, `%`, `+`, `#`, no raw
TAB/LF/CR, and no leading or trailing whitespace (in the full JavaScript
sense, Unicode spaces included).  The original claim fails without the
whitespace restriction because the decoder trims each value; the remaining
exclusions keep the browser's form-urlencoded decoding of names and values,
its fragment splitting, and its control-character stripping the identity on
every string the pipeline handles. -/
theorem c5_amended (uis : List KeyUi) (hc : cleanUis uis) :
    roundTrip uis = getKeyToVals uis := by
  have hq : ∀ kv ∈ getKeyToVals uis, '&' ∉ kv.qvar ∧ '=' ∉ kv.qvar := by
    intro kv hkv
    obtain ⟨u, hu, hk⟩ := List.mem_filterMap.mp hkv
    rw [keyToValsOf_qvar u kv hk]
    exact ⟨(hc.2.1 u hu).1 '&' (by decide), (hc.2.1 u hu).1 '=' (by decide)⟩
  have hv : ∀ kv ∈ getKeyToVals uis, ∀ v ∈ kv.vs, '&' ∉ v := by
    intro kv hkv v hv2
    obtain ⟨u, hu, hk⟩ := List.mem_filterMap.mp hkv
    exact ((hc.2.1 u hu).2.1 v (keyToValsOf_values u kv hk v hv2)).1 '&' (by decide)
  rw [roundTrip, parseQuery_encode (getKeyToVals uis) hc.2.2 hq hv,
    getStateFromUrlParams, List.map_map]
  show (uis.map _).filterMap keyToValsOf = getKeyToVals uis
  rw [List.filterMap_map]
  exact List.filterMap_congr (fun u hu => decode_restores uis hc u hu)

/-- A clean two-key control state: single-choice `color` with `red` selected,
multi-choice `size` with `S` and `M` checked under AND relation. -/
def uisC5w : List KeyUi :=
  [⟨("color").data, ("%value%").data, ("color").data, .select ("red").data⟩,
   ⟨("size").data, ("size-%value%").data, ("size").data,
     .checkbox (some true) (some true)
       [(("S").data, true), (("M").data, true), (("L").data, false)]⟩]

/-- Witness for the amended C5 at a concrete clean control state. -/
theorem c5_witness :
    cleanUis uisC5w ∧ roundTrip uisC5w = getKeyToVals uisC5w :=
  ⟨by decide, c5_amended uisC5w (by decide)⟩

end FilterCat
